import Mathlib

/-!
# Verification of the mandelbrot zoom renderer (src/main.rs)

Shallow embedding of the fractal-rendering engine.  The Rust program's
`f64` arithmetic is embedded as exact rational arithmetic (`ℚ`) for the
geometric and algorithmic claims; a separate round-to-nearest-even model
of binary64 arithmetic (`fl`, restricted to finite normal-range values)
is used for the claim that is specifically about 64-bit rounding
behaviour.  Machine indices (`usize`, `u32`) are embedded as `ℕ`; the
`as u8` cast is embedded as `% 256`.
-/

/-- Complex number with rational coordinates, embedding `num::Complex<f64>`
under exact arithmetic. -/
structure Cplx where
  re : ℚ
  im : ℚ
deriving DecidableEq, Repr

instance : Add Cplx := ⟨fun a b => ⟨a.re + b.re, a.im + b.im⟩⟩

/-- Standard complex multiplication, as implemented by the `num` crate. -/
instance : Mul Cplx := ⟨fun a b => ⟨a.re * b.re - a.im * b.im, a.re * b.im + a.im * b.re⟩⟩

@[simp]
theorem Cplx.add_re (a b : Cplx) : (a + b).re = a.re + b.re := rfl

@[simp]
theorem Cplx.add_im (a b : Cplx) : (a + b).im = a.im + b.im := rfl

@[simp]
theorem Cplx.mul_re (a b : Cplx) : (a * b).re = a.re * b.re - a.im * b.im := rfl

@[simp]
theorem Cplx.mul_im (a b : Cplx) : (a * b).im = a.re * b.im + a.im * b.re := rfl

/-- Embeds `Complex::norm_sqr`: squared magnitude `re*re + im*im`. -/
def Cplx.norm_sqr (z : Cplx) : ℚ := z.re * z.re + z.im * z.im

/-! ## Escape-Time Evaluator (`escape_time`, main.rs lines 254-265)

The Rust loop `for i in 0..limit { z = z*z + c; if z.norm_sqr() > 4.0
{ return Some(i) } }; None` is embedded with the remaining iteration
budget as structural fuel, following the loop body exactly: update `z`
first, then test the escape condition. -/

/-- Loop body of `escape_time`: `z` is the current iterate, `i` the
current loop index, the last argument the remaining number of loop
iterations. -/
def escapeAux (c : Cplx) : Cplx → ℕ → ℕ → Option ℕ
  | _, _, 0 => none
  | z, i, fuel + 1 =>
    let z1 := z * z + c
    if 4 < z1.norm_sqr then some i else escapeAux c z1 (i + 1) fuel

/-- Embeds `escape_time(c, limit)` from main.rs. -/
def escape_time (c : Cplx) (limit : ℕ) : Option ℕ :=
  escapeAux c ⟨0, 0⟩ 0 limit

/-- Specification-side orbit of the quadratic recurrence: `zOrbit c n` is
the value of `z` after `n` executions of `z = z*z + c` starting from
`z = 0`. -/
def zOrbit (c : Cplx) : ℕ → Cplx
  | 0 => ⟨0, 0⟩
  | n + 1 => zOrbit c n * zOrbit c n + c

/-! ## Coordinate Mapper (`pixel_to_point`, main.rs lines 186-199),
exact-arithmetic model. -/

/-- Embeds `pixel_to_point(size, pixel, upper_left, lower_right)` with the
`f64` arithmetic idealised as exact rational arithmetic.  `size` is
`(width, height)`, `pixel` is `(column, row)`. -/
def pixel_to_point (size pixel : ℕ × ℕ) (upper_left lower_right : Cplx) : Cplx :=
  let complex_width := lower_right.re - upper_left.re
  let complex_height := upper_left.im - lower_right.im
  ⟨upper_left.re + (pixel.1 : ℚ) * complex_width / (size.1 : ℚ),
   upper_left.im - (pixel.2 : ℚ) * complex_height / (size.2 : ℚ)⟩

/-! ## Band Renderer (`render`, main.rs lines 160-177)

The double loop `for row in 0..size.1 { for column in 0..size.0 {
pixels[column + row*size.0] = ... } }` writes the buffer in row-major
order, so it is embedded as the row-major concatenation of the rows.
The `count as u8` cast is embedded as `% 256`. -/

/-- Intensity byte written by `render` for one pixel. -/
def renderByte (size : ℕ × ℕ) (pixel : ℕ × ℕ) (upper_left lower_right : Cplx) : ℕ :=
  match escape_time (pixel_to_point size pixel upper_left lower_right) 255 with
  | none => 255
  | some count => count % 256

/-- Embeds the buffer produced by `render(pixels, size, upper_left,
lower_right)`. -/
def render (size : ℕ × ℕ) (upper_left lower_right : Cplx) : List ℕ :=
  ((List.range size.2).map (fun row =>
    (List.range size.1).map (fun column =>
      renderByte size (column, row) upper_left lower_right))).flatten

/-! ## Parallel Render Orchestrator (`generate_frame`, main.rs lines 120-151)

`generate_frame` splits the byte buffer with
`pixels.chunks_mut(rows_per_band * size.0)` where
`rows_per_band = size.1 / threads + 1` and `threads = 4`.  Chunk
boundaries are multiples of the row length `size.0`, so (for positive
width) the chunking of the byte buffer is exactly a chunking of the row
range; bands are embedded as the chunks of the row-index list
`[0, ..., height-1]` with chunk size `rows_per_band`. -/

/-- Fuel-indexed model of slice `chunks`: splits a list into consecutive
chunks of length `n` (last chunk possibly shorter).  The fuel only has to
dominate the list length. -/
def chunksAux {α : Type*} (n : ℕ) : ℕ → List α → List (List α)
  | _, [] => []
  | 0, _ :: _ => []
  | fuel + 1, a :: l => ((a :: l).take n) :: chunksAux n fuel ((a :: l).drop n)

/-- Model of slice `chunks(n)` from Rust: consecutive chunks of `n`
elements, the last one truncated. -/
def chunks {α : Type*} (n : ℕ) (l : List α) : List (List α) :=
  chunksAux n l.length l

/-- The hard-coded worker count of `generate_frame` (`let threads = 4`). -/
def threads : ℕ := 4

/-- Embeds `let rows_per_band = size.1 / threads + 1` (integer division),
with the worker count as a parameter. -/
def rows_per_band (height workers : ℕ) : ℕ := height / workers + 1

/-- Row-index bands produced by `generate_frame`'s chunking for a given
image height and worker count: each band is the list of row indices it
covers. -/
def bands (height workers : ℕ) : List (List ℕ) :=
  chunks (rows_per_band height workers) (List.range height)

/-! ## Zoom Sequencer (`generate_gif`, main.rs lines 49-103) -/

/-- A viewport rectangle: the pair `(upper_left, lower_right)` threaded
through `generate_gif`'s zoom loop. -/
structure Rect where
  upper_left : Cplx
  lower_right : Cplx
deriving DecidableEq, Repr

/-- One zoom step of `generate_gif` (main.rs lines 67-80): each corner
moves inward by `width * zoom_speed` horizontally and
`height * zoom_speed` vertically, where `width` and `height` are the
absolute extents of the current viewport. -/
def zoom_step (zoom_speed : ℚ) (r : Rect) : Rect :=
  let width := |r.upper_left.re - r.lower_right.re|
  let height := |r.upper_left.im - r.lower_right.im|
  let zoomed_width := width * zoom_speed
  let zoomed_height := height * zoom_speed
  ⟨r.upper_left + ⟨zoomed_width, -zoomed_height⟩,
   r.lower_right + ⟨-zoomed_width, zoomed_height⟩⟩

/-- The sequence of viewports passed to `generate_frame` by the loop
`for index in 0..number_of_frames` of `generate_gif`: the current
viewport is rendered, then shrunk by `zoom_step`. -/
def frame_rects (number_of_frames : ℕ) (zoom_speed : ℚ) (r : Rect) : List Rect :=
  match number_of_frames with
  | 0 => []
  | n + 1 => r :: frame_rects n zoom_speed (zoom_step zoom_speed r)

/-- Horizontal extent of a viewport. -/
def Rect.width (r : Rect) : ℚ := |r.upper_left.re - r.lower_right.re|

/-- Vertical extent of a viewport. -/
def Rect.height (r : Rect) : ℚ := |r.upper_left.im - r.lower_right.im|

/-- Center point of a viewport. -/
def Rect.center (r : Rect) : Cplx :=
  ⟨(r.upper_left.re + r.lower_right.re) / 2, (r.upper_left.im + r.lower_right.im) / 2⟩

/-- Frame indices written to the GIF by `generate_gif` (main.rs lines
91-102): for `i in 0..2*N`, frame `i` if `i < N`, else frame
`2*N - 1 - i`. -/
def display_indices (number_of_frames : ℕ) : List ℕ :=
  (List.range (2 * number_of_frames)).map (fun i =>
    if i < number_of_frames then i else 2 * number_of_frames - 1 - i)

/-- Embeds
`fetch_upper_left_and_lower_right_coordinates_based_on_central_point`
(main.rs lines 39-47): upper-left corner fixed at `(-2, 2)`, lower-right
corner derived from the central point by a (doubly applied) absolute
value. -/
def fetch_upper_left_and_lower_right_coordinates_based_on_central_point
    (central_point : Cplx) : Cplx × Cplx :=
  let upper_left : Cplx := ⟨-2, 2⟩
  (upper_left,
   ⟨central_point.re + abs (abs (upper_left.re - central_point.re)),
    central_point.im - abs (abs (upper_left.im - central_point.im))⟩)

/-! ## Basic lemmas about the data model -/

theorem Cplx.ext {a b : Cplx} (h1 : a.re = b.re) (h2 : a.im = b.im) : a = b := by
  cases a; cases b; simp_all

/-- Default rectangle used with `List.getD`. -/
def dRect : Rect := ⟨⟨0, 0⟩, ⟨0, 0⟩⟩

theorem center_zoom_step (s : ℚ) (r : Rect) : (zoom_step s r).center = r.center := by
  refine Cplx.ext ?_ ?_ <;> simp [zoom_step, Rect.center] <;> ring

theorem frame_rects_length (n : ℕ) (s : ℚ) : ∀ r : Rect, (frame_rects n s r).length = n := by
  induction n with
  | zero => intro r; rfl
  | succ n ih => intro r; simp [frame_rects, ih]

theorem frame_rects_getD_succ (n : ℕ) (s : ℚ) : ∀ (i : ℕ) (r d : Rect), i + 1 < n →
    (frame_rects n s r).getD (i + 1) d = zoom_step s ((frame_rects n s r).getD i d) := by
  induction n with
  | zero => intro i r d h; omega
  | succ n ih =>
    intro i r d h
    match i with
    | 0 =>
      cases n with
      | zero => omega
      | succ m => simp [frame_rects]
    | j + 1 =>
      simp only [frame_rects, List.getD_cons_succ]
      exact ih j (zoom_step s r) d (by omega)

theorem zoom_step_ordered (s : ℚ) (r : Rect)
    (hre : r.upper_left.re ≤ r.lower_right.re) (him : r.lower_right.im ≤ r.upper_left.im)
    (hs0 : 0 ≤ s) (hs2 : s ≤ 1/2) :
    (zoom_step s r).upper_left.re ≤ (zoom_step s r).lower_right.re ∧
    (zoom_step s r).lower_right.im ≤ (zoom_step s r).upper_left.im := by
  simp only [zoom_step, Cplx.add_re, Cplx.add_im]
  constructor
  · rw [abs_of_nonpos (by linarith : r.upper_left.re - r.lower_right.re ≤ 0)]
    nlinarith [mul_nonneg (sub_nonneg.2 hre) (by linarith : (0:ℚ) ≤ 1 - 2*s)]
  · rw [abs_of_nonneg (by linarith : (0:ℚ) ≤ r.upper_left.im - r.lower_right.im)]
    nlinarith [mul_nonneg (sub_nonneg.2 him) (by linarith : (0:ℚ) ≤ 1 - 2*s)]

theorem frame_rects_ordered (n : ℕ) (s : ℚ) (hs0 : 0 ≤ s) (hs2 : s ≤ 1/2) :
    ∀ r : Rect, r.upper_left.re ≤ r.lower_right.re → r.lower_right.im ≤ r.upper_left.im →
      ∀ q ∈ frame_rects n s r,
        q.upper_left.re ≤ q.lower_right.re ∧ q.lower_right.im ≤ q.upper_left.im := by
  induction n with
  | zero => intro r _ _ q hq; simp [frame_rects] at hq
  | succ n ih =>
    intro r hre him q hq
    rw [frame_rects] at hq
    rcases List.mem_cons.1 hq with h | h
    · exact h ▸ ⟨hre, him⟩
    · exact ih (zoom_step s r) (zoom_step_ordered s r hre him hs0 hs2).1
        (zoom_step_ordered s r hre him hs0 hs2).2 q h

theorem zoom_step_corners (s : ℚ) (r : Rect) :
    (zoom_step s r).upper_left =
      ⟨r.upper_left.re + r.width * s, r.upper_left.im - r.height * s⟩ ∧
    (zoom_step s r).lower_right =
      ⟨r.lower_right.re - r.width * s, r.lower_right.im + r.height * s⟩ := by
  constructor <;> refine Cplx.ext ?_ ?_ <;>
    simp [zoom_step, Rect.width, Rect.height] <;> ring

theorem zoom_step_width (s : ℚ) (r : Rect)
    (hre : r.upper_left.re ≤ r.lower_right.re) (hs0 : 0 ≤ s) (hs2 : s ≤ 1/2) :
    (zoom_step s r).width = r.width * (1 - 2*s) := by
  simp only [zoom_step, Rect.width, Cplx.add_re]
  rw [abs_of_nonpos (by linarith : r.upper_left.re - r.lower_right.re ≤ 0)]
  have h1 : r.upper_left.re + -(r.upper_left.re - r.lower_right.re) * s -
      (r.lower_right.re + -(-(r.upper_left.re - r.lower_right.re) * s)) =
      -((r.lower_right.re - r.upper_left.re) * (1 - 2*s)) := by ring
  rw [h1, abs_neg, abs_of_nonneg (mul_nonneg (by linarith) (by linarith))]
  ring

theorem frame_rects_getD_mem (n : ℕ) (s : ℚ) (r d : Rect) (i : ℕ) (hi : i < n) :
    (frame_rects n s r).getD i d ∈ frame_rects n s r := by
  have hlen : i < (frame_rects n s r).length := by rw [frame_rects_length]; exact hi
  rw [List.getD_eq_getElem?_getD, List.getElem?_eq_getElem hlen]
  exact List.getElem_mem hlen

/-- Claim C1, counterexample: with the initial viewport `[-2,2] × [-2,2]`
(width 4) and zoom ratio `r = 1/4`, the second frame's width is 2, not
`4 * (1 - 1/4) = 3` as the claim requires. -/
theorem C1_counterexample :
    Rect.width ((frame_rects 2 (1/4) ⟨⟨-2, 2⟩, ⟨2, -2⟩⟩).getD 1 dRect) = 2 ∧
    Rect.width ((frame_rects 2 (1/4) ⟨⟨-2, 2⟩, ⟨2, -2⟩⟩).getD 0 dRect) = 4 ∧
    (2 : ℚ) ≠ 4 * (1 - 1/4) := by
  refine ⟨?_, ?_, by norm_num⟩ <;> norm_num [frame_rects, zoom_step, Rect.width, dRect]

/-- Claim C1 (amended): each zoom step moves each corner inward by
`currentWidth * r` horizontally and `currentHeight * r` vertically, and
consequently (for `0 ≤ r ≤ 1/2` and an ordered viewport) frame `i+1`'s
width equals frame `i`'s width times `(1 - 2*r)`, not `(1 - r)`. -/
theorem C1_zoom_step_shrink (n : ℕ) (s : ℚ) (r0 : Rect)
    (hre : r0.upper_left.re ≤ r0.lower_right.re)
    (him : r0.lower_right.im ≤ r0.upper_left.im)
    (hs0 : 0 ≤ s) (hs2 : s ≤ 1/2) (i : ℕ) (hi : i + 1 < n) :
    ((frame_rects n s r0).getD (i+1) dRect).upper_left =
      ⟨((frame_rects n s r0).getD i dRect).upper_left.re +
          ((frame_rects n s r0).getD i dRect).width * s,
        ((frame_rects n s r0).getD i dRect).upper_left.im -
          ((frame_rects n s r0).getD i dRect).height * s⟩ ∧
    ((frame_rects n s r0).getD (i+1) dRect).lower_right =
      ⟨((frame_rects n s r0).getD i dRect).lower_right.re -
          ((frame_rects n s r0).getD i dRect).width * s,
        ((frame_rects n s r0).getD i dRect).lower_right.im +
          ((frame_rects n s r0).getD i dRect).height * s⟩ ∧
    ((frame_rects n s r0).getD (i+1) dRect).width =
      ((frame_rects n s r0).getD i dRect).width * (1 - 2*s) := by
  have hmem := frame_rects_getD_mem n s r0 dRect i (by omega)
  have hord := frame_rects_ordered n s hs0 hs2 r0 hre him _ hmem
  rw [frame_rects_getD_succ n s i r0 dRect hi]
  exact ⟨(zoom_step_corners s _).1, (zoom_step_corners s _).2,
    zoom_step_width s _ hord.1 hs0 hs2⟩

/-- Claim C1, witness: concrete instance of the amended width law. -/
theorem C1_witness :
    Rect.width ((frame_rects 2 (1/4) ⟨⟨-2, 2⟩, ⟨2, -2⟩⟩).getD 1 dRect) =
      Rect.width ((frame_rects 2 (1/4) ⟨⟨-2, 2⟩, ⟨2, -2⟩⟩).getD 0 dRect) * (1 - 2*(1/4)) :=
  (C1_zoom_step_shrink 2 (1/4) ⟨⟨-2, 2⟩, ⟨2, -2⟩⟩ (by norm_num) (by norm_num)
    (by norm_num) (by norm_num) 0 (by norm_num)).2.2

/-- Claim C6, counterexample: with zoom ratio 2 (`≥ 1`), the sequencer
still renders one frame — nothing is rejected. -/
theorem C6_counterexample :
    (frame_rects 1 2 ⟨⟨-2, 2⟩, ⟨2, -2⟩⟩).length = 1 ∧ (1 : ℕ) ≠ 0 :=
  ⟨by simp [frame_rects], by norm_num⟩

/-- Claim C6 (amended): the program performs no validation of the zoom
ratio; for every ratio — including `r ≥ 1` and `r ≤ 0` — the zoom loop
renders exactly `number_of_frames` frames. -/
theorem C6_no_validation (n : ℕ) (s : ℚ) (r : Rect) :
    (frame_rects n s r).length = n :=
  frame_rects_length n s r

/-- Claim C8: every frame's viewport has the same center point as the
initial viewport (the zoom is exactly concentric in exact arithmetic). -/
theorem C8_center_invariant (n : ℕ) (s : ℚ) (r0 : Rect) :
    ∀ q ∈ frame_rects n s r0, q.center = r0.center := by
  induction n generalizing r0 with
  | zero => intro q hq; simp [frame_rects] at hq
  | succ n ih =>
    intro q hq
    rw [frame_rects] at hq
    rcases List.mem_cons.1 hq with h | h
    · rw [h]
    · rw [ih (zoom_step s r0) q h, center_zoom_step]

/-- Claim C8, witness: the second frame of a concrete sequence has the
same center as the first. -/
theorem C8_witness :
    (zoom_step (1/3) ⟨⟨-2, 2⟩, ⟨2, -2⟩⟩).center = Rect.center ⟨⟨-2, 2⟩, ⟨2, -2⟩⟩ :=
  C8_center_invariant 2 (1/3) ⟨⟨-2, 2⟩, ⟨2, -2⟩⟩ _ (by simp [frame_rects])

/-- Claim C10: for a central point with `re ≥ -2` and `im ≤ 2`, the derived
rectangle has upper-left corner `(-2, 2)`, lower-right corner
`(2*re + 2, 2*im - 2)`, and the central point as its exact center. -/
theorem C10_fetch_rectangle (c : Cplx) (hre : -2 ≤ c.re) (him : c.im ≤ 2) :
    fetch_upper_left_and_lower_right_coordinates_based_on_central_point c =
      (⟨-2, 2⟩, ⟨2 * c.re + 2, 2 * c.im - 2⟩) ∧
    Rect.center ⟨⟨-2, 2⟩, ⟨2 * c.re + 2, 2 * c.im - 2⟩⟩ = c := by
  have h1 : |(-2 : ℚ) - c.re| = c.re + 2 := by
    rw [abs_of_nonpos (by linarith)]; ring
  have h2 : |(2 : ℚ) - c.im| = 2 - c.im := abs_of_nonneg (by linarith)
  constructor
  · simp only [fetch_upper_left_and_lower_right_coordinates_based_on_central_point,
      abs_abs, Prod.mk.injEq]
    refine ⟨trivial, Cplx.ext ?_ ?_⟩
    · show c.re + |(-2 : ℚ) - c.re| = 2 * c.re + 2
      rw [h1]; ring
    · show c.im - |(2 : ℚ) - c.im| = 2 * c.im - 2
      rw [h2]; ring
  · refine Cplx.ext ?_ ?_ <;> simp [Rect.center] <;> ring

/-- Claim C10, witness: concrete central point `(1, 1)`. -/
theorem C10_witness :
    fetch_upper_left_and_lower_right_coordinates_based_on_central_point ⟨1, 1⟩ =
      (⟨-2, 2⟩, ⟨2 * 1 + 2, 2 * 1 - 2⟩) ∧
    Rect.center ⟨⟨-2, 2⟩, ⟨2 * 1 + 2, 2 * 1 - 2⟩⟩ = ⟨1, 1⟩ :=
  C10_fetch_rectangle ⟨1, 1⟩ (by norm_num) (by norm_num)

/-! ## Claim C3: the palindromic display sequence -/

theorem display_indices_eq (n : ℕ) :
    display_indices n = List.range n ++ (List.range n).reverse := by
  have hrev : (List.range n).reverse = List.map (fun x => n - 1 - x) (List.range n) := by
    conv_lhs => rw [List.range_eq_range', List.reverse_range']
    apply List.map_congr_left
    intro a ha
    omega
  unfold display_indices
  rw [two_mul, List.range_add, List.map_append, List.map_map]
  congr 1
  · conv_rhs => rw [← List.map_id (List.range n)]
    apply List.map_congr_left
    intro a ha
    simp [List.mem_range.1 ha]
  · rw [hrev]
    apply List.map_congr_left
    intro a ha
    have hm := List.mem_range.1 ha
    simp only [Function.comp_apply]
    rw [if_neg (by omega)]
    omega

/-- Claim C3, counterexample: for `N = 2` the turnaround frame `N-1 = 1`
appears twice in the display sequence (`[0, 1, 1, 0]`), not once. -/
theorem C3_counterexample : (display_indices 2).count 1 = 2 ∧ (2 : ℕ) ≠ 1 := by
  decide

/-- Claim C3 (amended): the display sequence has length `2N`, shows
rendered frame `i` at position `i` for `i < N` and rendered frame
`2N-1-i` at positions `N ≤ i < 2N`; positions `N-1` and `N` both show
frame `N-1`, so the turnaround frame appears exactly twice (adjacent, at
the boundary), not once. -/
theorem C3_display_sequence (n : ℕ) (hn : 1 ≤ n) :
    (display_indices n).length = 2 * n ∧
    (∀ i, i < n → (display_indices n)[i]? = some i) ∧
    (∀ i, n ≤ i → i < 2 * n → (display_indices n)[i]? = some (2 * n - 1 - i)) ∧
    (display_indices n)[n - 1]? = some (n - 1) ∧
    (display_indices n)[n]? = some (n - 1) ∧
    (display_indices n).count (n - 1) = 2 := by
  have hget : ∀ i, i < 2 * n →
      (display_indices n)[i]? = some (if i < n then i else 2 * n - 1 - i) := by
    intro i hi
    unfold display_indices
    rw [List.getElem?_map, List.getElem?_range hi]
    rfl
  refine ⟨by simp [display_indices], ?_, ?_, ?_, ?_, ?_⟩
  · intro i hi
    rw [hget i (by omega)]
    simp [hi]
  · intro i h1 h2
    rw [hget i h2]
    simp [show ¬ i < n by omega]
  · rw [hget (n-1) (by omega)]
    simp [show n - 1 < n by omega]
  · rw [hget n (by omega)]
    rw [if_neg (lt_irrefl n)]
    simp only [Option.some.injEq]
    omega
  · rw [display_indices_eq, List.count_append, List.count_reverse]
    have h1 : (List.range n).count (n-1) = 1 :=
      List.count_eq_one_of_mem (List.nodup_range n) (List.mem_range.2 (by omega))
    omega

/-- Claim C3, witness: concrete instance at `N = 2`. -/
theorem C3_witness :
    (display_indices 2)[2 - 1]? = some (2 - 1) ∧
    (display_indices 2)[2]? = some (2 - 1) ∧
    (display_indices 2).count (2 - 1) = 2 :=
  ⟨(C3_display_sequence 2 (by norm_num)).2.2.2.1,
   (C3_display_sequence 2 (by norm_num)).2.2.2.2.1,
   (C3_display_sequence 2 (by norm_num)).2.2.2.2.2⟩

theorem chunksAux_nil {α : Type*} (n fuel : ℕ) : chunksAux n fuel ([] : List α) = [] := by
  cases fuel <;> rfl

theorem chunksAux_flatten {α : Type*} (n : ℕ) (hn : 1 ≤ n) :
    ∀ (fuel : ℕ) (l : List α), l.length ≤ fuel → (chunksAux n fuel l).flatten = l := by
  intro fuel
  induction fuel with
  | zero =>
    intro l hl
    match l with
    | [] => rfl
    | a :: t => simp at hl
  | succ fuel ih =>
    intro l hl
    match l with
    | [] => rfl
    | a :: t =>
      show ((a :: t).take n ++ (chunksAux n fuel ((a :: t).drop n)).flatten) = a :: t
      rw [ih ((a :: t).drop n)
        (by simp only [List.length_drop, List.length_cons] at hl ⊢; omega)]
      exact List.take_append_drop n (a :: t)

theorem chunksAux_length {α : Type*} (n : ℕ) (hn : 1 ≤ n) :
    ∀ (fuel : ℕ) (l : List α), l.length ≤ fuel → l ≠ [] →
      (chunksAux n fuel l).length = (l.length - 1) / n + 1 := by
  intro fuel
  induction fuel with
  | zero =>
    intro l hl hne
    match l with
    | [] => exact absurd rfl hne
    | a :: t => simp at hl
  | succ fuel ih =>
    intro l hl hne
    match l with
    | [] => exact absurd rfl hne
    | a :: t =>
      show (((a :: t).take n :: chunksAux n fuel ((a :: t).drop n)).length) = _
      by_cases hd : (a :: t).drop n = []
      · have hlen : (a :: t).length ≤ n := by
          have h2 := List.length_drop n (a :: t)
          rw [hd] at h2
          simp only [List.length_nil] at h2
          omega
        rw [hd, chunksAux_nil]
        simp only [List.length_cons, List.length_nil]
        rw [Nat.div_eq_of_lt (by simp only [List.length_cons] at hlen ⊢; omega)]
      · rw [List.length_cons, ih ((a :: t).drop n)
          (by simp only [List.length_drop, List.length_cons] at hl ⊢; omega) hd]
        have hgt : n < (a :: t).length := by
          by_contra hcon
          push_neg at hcon
          exact hd (List.drop_eq_nil_of_le hcon)
        have hle : n ≤ (a :: t).length - 1 := by omega
        have e1 : (a :: t).length - 1 = ((a :: t).length - 1 - n) + n :=
          (Nat.sub_add_cancel hle).symm
        rw [List.length_drop]
        conv_rhs => rw [e1]
        rw [Nat.add_div_right _ (by omega)]
        have e2 : (a :: t).length - n - 1 = (a :: t).length - 1 - n := by omega
        rw [e2]

theorem chunksAux_getD {α : Type*} (n : ℕ) (hn : 1 ≤ n) :
    ∀ (fuel : ℕ) (l : List α) (i : ℕ), l.length ≤ fuel →
      (chunksAux n fuel l).getD i [] = (l.drop (i * n)).take n := by
  intro fuel
  induction fuel with
  | zero =>
    intro l i hl
    match l with
    | [] => simp [chunksAux_nil]
    | a :: t => simp at hl
  | succ fuel ih =>
    intro l i hl
    match l with
    | [] => simp [chunksAux_nil]
    | a :: t =>
      show ((a :: t).take n :: chunksAux n fuel ((a :: t).drop n)).getD i [] = _
      match i with
      | 0 => simp
      | j + 1 =>
        rw [List.getD_cons_succ, ih ((a :: t).drop n) j
          (by simp only [List.length_drop, List.length_cons] at hl ⊢; omega)]
        rw [List.drop_drop]
        have e : n + j * n = (j + 1) * n := by ring
        rw [e]

/-- Claim C4: for every image height and worker count, the row bands
produced by `generate_frame`'s chunking are contiguous, non-overlapping
and cover every row of `[0, height)` exactly once: their concatenation is
exactly the row list `[0, ..., height-1]`, and every row occurs exactly
once in it. -/
theorem C4_bands_partition (height workers : ℕ) :
    (bands height workers).flatten = List.range height ∧
    ∀ row, row < height → (bands height workers).flatten.count row = 1 := by
  have h1 : (bands height workers).flatten = List.range height := by
    unfold bands chunks
    exact chunksAux_flatten _ (by simp [rows_per_band]) _ _ le_rfl
  refine ⟨h1, fun row hrow => ?_⟩
  rw [h1]
  exact List.count_eq_one_of_mem (List.nodup_range _) (List.mem_range.2 hrow)

/-- Claim C2 (amended): `generate_frame` partitions the row range into
`ceil(height / (height/workers + 1))` bands (not `workers` bands) of
`height/workers + 1` rows each (integer division plus one, not
`ceil(height/workers)`), the final band truncated to the remaining rows:
band `i` is rows `[i*rpb, min((i+1)*rpb, height))` where
`rpb = height/workers + 1`. -/
theorem C2_bands_shape (height workers : ℕ) (h1 : 1 ≤ height) :
    (bands height workers).length = (height - 1) / rows_per_band height workers + 1 ∧
    ∀ i, (bands height workers).getD i [] =
        ((List.range height).drop (i * rows_per_band height workers)).take
          (rows_per_band height workers) ∧
      ((bands height workers).getD i []).length =
        min (rows_per_band height workers) (height - i * rows_per_band height workers) := by
  constructor
  · unfold bands chunks
    rw [chunksAux_length _ (by simp [rows_per_band]) _ _ le_rfl
      (by simp [List.range_eq_nil]; omega)]
    simp
  · intro i
    have hg : (bands height workers).getD i [] =
        ((List.range height).drop (i * rows_per_band height workers)).take
          (rows_per_band height workers) := by
      unfold bands chunks
      exact chunksAux_getD _ (by simp [rows_per_band]) _ _ i le_rfl
    refine ⟨hg, ?_⟩
    rw [hg]
    simp [List.length_take, List.length_drop]

/-- Claim C2, counterexample: for height 4 and the code's worker count 4
the claim predicts 4 bands of `ceil(4/4) = 1` row each; the code produces
2 bands of 2 rows each (`rows_per_band = 4/4 + 1 = 2`). -/
theorem C2_counterexample :
    (bands 4 4).length = 2 ∧ (2 : ℕ) ≠ 4 ∧ (bands 4 4).getD 0 [] = [0, 1] ∧
    ([0, 1] : List ℕ).length ≠ 1 := by decide

/-- Claim C2, witness: concrete instance of the amended band shape at
height 5, worker count 4. -/
theorem C2_witness :
    (bands 5 4).length = (5 - 1) / rows_per_band 5 4 + 1 ∧
    (bands 5 4).getD 2 [] =
      ((List.range 5).drop (2 * rows_per_band 5 4)).take (rows_per_band 5 4) :=
  ⟨(C2_bands_shape 5 4 (by norm_num)).1, ((C2_bands_shape 5 4 (by norm_num)).2 2).1⟩

/-- Claim C4, witness: concrete instance of the partition property. -/
theorem C4_witness :
    (bands 5 4).flatten = List.range 5 ∧ (bands 5 4).flatten.count 3 = 1 :=
  ⟨(C4_bands_partition 5 4).1, (C4_bands_partition 5 4).2 3 (by norm_num)⟩

/-! ## Claim C5: correctness of the Escape-Time Evaluator -/

/-- Specification-side orbit starting from an arbitrary iterate `z`:
`orbitFrom c z n` is `z` after `n` further executions of `z = z*z + c`. -/
def orbitFrom (c z : Cplx) : ℕ → Cplx
  | 0 => z
  | n + 1 => orbitFrom c z n * orbitFrom c z n + c

theorem orbitFrom_shift (c z : Cplx) : ∀ n, orbitFrom c (z * z + c) n = orbitFrom c z (n + 1) := by
  intro n
  induction n with
  | zero => rfl
  | succ n ih =>
    show orbitFrom c (z * z + c) n * orbitFrom c (z * z + c) n + c = _
    rw [ih]
    rfl

theorem zOrbit_eq_orbitFrom (c : Cplx) : ∀ n, zOrbit c n = orbitFrom c ⟨0, 0⟩ n := by
  intro n
  induction n with
  | zero => rfl
  | succ n ih =>
    show zOrbit c n * zOrbit c n + c = _
    rw [ih]
    rfl

theorem orbitFrom_zero_zero : ∀ n, orbitFrom ⟨0, 0⟩ (⟨0, 0⟩ : Cplx) n = ⟨0, 0⟩ := by
  intro n
  induction n with
  | zero => rfl
  | succ n ih =>
    show orbitFrom ⟨0, 0⟩ ⟨0, 0⟩ n * orbitFrom ⟨0, 0⟩ ⟨0, 0⟩ n + ⟨0, 0⟩ = _
    rw [ih]
    refine Cplx.ext ?_ ?_ <;> norm_num

theorem escapeAux_some_iff (c : Cplx) : ∀ (fuel : ℕ) (z : Cplx) (i j : ℕ),
    escapeAux c z i fuel = some j ↔
      ∃ k, j = i + k ∧ k < fuel ∧ 4 < (orbitFrom c z (k+1)).norm_sqr ∧
        ∀ m, m < k → (orbitFrom c z (m+1)).norm_sqr ≤ 4 := by
  intro fuel
  induction fuel with
  | zero =>
    intro z i j
    simp [escapeAux]
  | succ fuel ih =>
    intro z i j
    show (if 4 < (z * z + c).norm_sqr then some i else escapeAux c (z * z + c) (i+1) fuel)
        = some j ↔ _
    by_cases h4 : 4 < (z * z + c).norm_sqr
    · rw [if_pos h4]
      simp only [Option.some.injEq]
      constructor
      · rintro rfl
        exact ⟨0, by omega, by omega, h4, fun m hm => absurd hm (by omega)⟩
      · rintro ⟨k, hjk, hk, hesc, hbefore⟩
        match k with
        | 0 => omega
        | k' + 1 => exact absurd h4 (not_lt.2 (hbefore 0 (by omega)))
    · rw [if_neg h4, ih (z * z + c) (i+1) j]
      constructor
      · rintro ⟨k, hjk, hk, hesc, hbefore⟩
        refine ⟨k + 1, by omega, by omega, ?_, ?_⟩
        · rw [orbitFrom_shift] at hesc
          exact hesc
        · intro m hm
          match m with
          | 0 => exact not_lt.1 h4
          | m' + 1 =>
            have h := hbefore m' (by omega)
            rw [orbitFrom_shift] at h
            exact h
      · rintro ⟨k, hjk, hk, hesc, hbefore⟩
        match k with
        | 0 => exact absurd hesc h4
        | k' + 1 =>
          refine ⟨k', by omega, by omega, ?_, ?_⟩
          · rw [orbitFrom_shift]
            exact hesc
          · intro m hm
            rw [orbitFrom_shift]
            exact hbefore (m+1) (by omega)

theorem escapeAux_none_iff (c : Cplx) : ∀ (fuel : ℕ) (z : Cplx) (i : ℕ),
    escapeAux c z i fuel = none ↔
      ∀ k, k < fuel → (orbitFrom c z (k+1)).norm_sqr ≤ 4 := by
  intro fuel
  induction fuel with
  | zero =>
    intro z i
    constructor
    · intro _ k hk
      exact absurd hk (by omega)
    · intro _
      rfl
  | succ fuel ih =>
    intro z i
    show (if 4 < (z * z + c).norm_sqr then some i else escapeAux c (z * z + c) (i+1) fuel)
        = none ↔ _
    by_cases h4 : 4 < (z * z + c).norm_sqr
    · rw [if_pos h4]
      constructor
      · intro hcon
        simp at hcon
      · intro hall
        exact absurd h4 (not_lt.2 (hall 0 (by omega)))
    · rw [if_neg h4, ih (z * z + c) (i+1)]
      constructor
      · intro hall k hk
        match k with
        | 0 => exact not_lt.1 h4
        | m + 1 =>
          have h := hall m (by omega)
          rw [orbitFrom_shift] at h
          exact h
      · intro hall k hk
        rw [orbitFrom_shift]
        exact hall (k+1) (by omega)

/-- Claim C5: `escape_time c limit` returns `some i` exactly when `i` is
the 0-based index of the first iteration at which the orbit of `z = z*z + c`
(started from `z = 0`) has squared magnitude exceeding 4, provided
`i < limit`; otherwise it returns `none`; in particular
`escape_time 0 limit = none` for every `limit ≥ 1`. -/
theorem C5_escape_time_spec :
    (∀ (c : Cplx) (limit j : ℕ),
      escape_time c limit = some j ↔
        j < limit ∧ 4 < (zOrbit c (j+1)).norm_sqr ∧
          ∀ m, m < j → (zOrbit c (m+1)).norm_sqr ≤ 4) ∧
    (∀ (c : Cplx) (limit : ℕ),
      escape_time c limit = none ↔ ∀ k, k < limit → (zOrbit c (k+1)).norm_sqr ≤ 4) ∧
    (∀ limit, 1 ≤ limit → escape_time ⟨0, 0⟩ limit = none) := by
  refine ⟨?_, ?_, ?_⟩
  · intro c limit j
    unfold escape_time
    rw [escapeAux_some_iff]
    constructor
    · rintro ⟨k, hjk, hk, hesc, hbef⟩
      have hkj : k = j := by omega
      subst hkj
      exact ⟨hk, by rw [zOrbit_eq_orbitFrom]; exact hesc,
        fun m hm => by rw [zOrbit_eq_orbitFrom]; exact hbef m hm⟩
    · rintro ⟨h1, h2, h3⟩
      exact ⟨j, by omega, h1, by rw [← zOrbit_eq_orbitFrom]; exact h2,
        fun m hm => by rw [← zOrbit_eq_orbitFrom]; exact h3 m hm⟩
  · intro c limit
    unfold escape_time
    rw [escapeAux_none_iff]
    constructor <;> intro hall k hk
    · rw [zOrbit_eq_orbitFrom]
      exact hall k hk
    · rw [← zOrbit_eq_orbitFrom]
      exact hall k hk
  · intro limit _
    unfold escape_time
    rw [escapeAux_none_iff]
    intro k hk
    rw [orbitFrom_zero_zero]
    norm_num [Cplx.norm_sqr]

/-- Claim C5, witness: `2+2i` escapes immediately with count 0, and `0`
never escapes. -/
theorem C5_witness : escape_time ⟨2, 2⟩ 1 = some 0 ∧ escape_time ⟨0, 0⟩ 3 = none :=
  ⟨(C5_escape_time_spec.1 ⟨2, 2⟩ 1 0).mpr
    ⟨by norm_num, by norm_num [zOrbit, Cplx.norm_sqr], fun m hm => absurd hm (by omega)⟩,
   C5_escape_time_spec.2.2 3 (by norm_num)⟩

/-! ## Claim C9: the Band Renderer intensity bytes -/

theorem flatten_getElem_rows {α : Type*} (w : ℕ) :
    ∀ (L : List (List α)) (row col : ℕ), (∀ l ∈ L, l.length = w) → col < w →
      L.flatten[col + row * w]? = L[row]?.bind (fun l => l[col]?) := by
  intro L
  induction L with
  | nil => intro row col _ _; simp
  | cons l L ih =>
    intro row col hlen hcol
    have hl : l.length = w := hlen l (List.mem_cons_self l L)
    match row with
    | 0 =>
      rw [List.flatten_cons, List.getElem?_append]
      rw [if_pos (by omega)]
      simp
    | row + 1 =>
      rw [List.flatten_cons]
      have hw : (row + 1) * w = row * w + w := by ring
      rw [List.getElem?_append_right (by omega)]
      have he : col + (row + 1) * w - l.length = col + row * w := by omega
      rw [he, ih row col (fun x hx => hlen x (List.mem_cons_of_mem l hx)) hcol]
      simp

/-- Claim C9: every byte written by `render` follows the direct color
policy: at buffer position `column + row * width` the byte is the escape
count when the pixel's point escapes within the fixed budget of 255
iterations (the count, below 255, is written unchanged by the `as u8`
cast), and 255 when it does not escape. -/
theorem C9_render_byte (size : ℕ × ℕ) (ul lr : Cplx) (row col : ℕ)
    (hrow : row < size.2) (hcol : col < size.1) :
    (escape_time (pixel_to_point size (col, row) ul lr) 255 = none →
      (render size ul lr)[col + row * size.1]? = some 255) ∧
    (∀ count, escape_time (pixel_to_point size (col, row) ul lr) 255 = some count →
      (render size ul lr)[col + row * size.1]? = some count) := by
  have hidx : (render size ul lr)[col + row * size.1]? =
      some (renderByte size (col, row) ul lr) := by
    unfold render
    rw [flatten_getElem_rows size.1 _ row col ?side hcol]
    case side =>
      intro l hl
      simp only [List.mem_map] at hl
      obtain ⟨a, _, rfl⟩ := hl
      simp
    rw [List.getElem?_map, List.getElem?_range hrow]
    simp only [Option.map_some', Option.some_bind]
    rw [List.getElem?_map, List.getElem?_range hcol]
    rfl
  constructor
  · intro hnone
    rw [hidx]
    simp [renderByte, hnone]
  · intro count hsome
    have hlt : count < 255 := by
      unfold escape_time at hsome
      obtain ⟨k, hk1, hk2, -, -⟩ := (escapeAux_some_iff _ 255 ⟨0, 0⟩ 0 count).1 hsome
      omega
    rw [hidx]
    simp [renderByte, hsome, Nat.mod_eq_of_lt (by omega : count < 256)]

/-- Claim C9, witness: pixel (0,0) of a concrete 2x2 frame maps to the
point `-2+2i`, which escapes at iteration 0, so byte 0 is written. -/
theorem C9_witness : (render (2, 2) ⟨-2, 2⟩ ⟨2, -2⟩)[0 + 0 * 2]? = some 0 := by
  have hesc : escape_time (pixel_to_point (2, 2) (0, 0) ⟨-2, 2⟩ ⟨2, -2⟩) 255 = some 0 := by
    have hp : pixel_to_point (2, 2) (0, 0) ⟨-2, 2⟩ ⟨2, -2⟩ = ⟨-2, 2⟩ := by
      refine Cplx.ext ?_ ?_ <;> norm_num [pixel_to_point]
    rw [hp]
    show escapeAux ⟨-2, 2⟩ ⟨0, 0⟩ 0 255 = some 0
    rw [escapeAux_some_iff]
    refine ⟨0, rfl, by omega, ?_, fun m hm => absurd hm (by omega)⟩
    show (4 : ℚ) < ((⟨0, 0⟩ : Cplx) * ⟨0, 0⟩ + ⟨-2, 2⟩).norm_sqr
    norm_num [Cplx.norm_sqr]
  exact (C9_render_byte (2, 2) ⟨-2, 2⟩ ⟨2, -2⟩ 0 0 (by norm_num) (by norm_num)).2 0 hesc

/-! ## Claim C7: boundary exactness of the Coordinate Mapper under
binary64 rounding

`pixel_to_point` computes with `f64`.  To settle the claim about exact
64-bit floating-point equality at the grid boundaries, the function is
re-embedded with every arithmetic operation rounded to the nearest
binary64 value (round to nearest, ties to even), the IEEE-754 default
rounding used by Rust `f64`. -/

/-- Round a rational to the nearest integer, ties to even. -/
def rne (x : ℚ) : ℤ :=
  if x - ⌊x⌋ < 1/2 then ⌊x⌋
  else if 1/2 < x - ⌊x⌋ then ⌊x⌋ + 1
  else if ⌊x⌋ % 2 = 0 then ⌊x⌋ else ⌊x⌋ + 1

/-- Round a rational to the nearest binary64 value (round to nearest, ties
to even): the significand is scaled to `[2^52, 2^53)` and rounded.
Restricted to the finite normal range: signed zeros, infinities, NaNs,
subnormals and overflow are outside the model. -/
def fl (x : ℚ) : ℚ :=
  if x = 0 then 0
  else (if x < 0 then (-1 : ℚ) else 1) *
    (rne (|x| * 2 ^ ((52 : ℤ) - Int.log 2 |x|)) : ℚ) * 2 ^ (Int.log 2 |x| - 52)

def fadd (a b : ℚ) : ℚ := fl (a + b)

def fsub (a b : ℚ) : ℚ := fl (a - b)

def fmul (a b : ℚ) : ℚ := fl (a * b)

def fdiv (a b : ℚ) : ℚ := fl (a / b)

/-- Binary64 model of `pixel_to_point`: every `f64` operation of the Rust
function rounds its exact result to the nearest binary64 value. -/
def pixel_to_point64 (size pixel : ℕ × ℕ) (upper_left lower_right : Cplx) : Cplx :=
  ⟨fadd upper_left.re
     (fdiv (fmul (fl (pixel.1 : ℚ)) (fsub lower_right.re upper_left.re)) (fl (size.1 : ℚ))),
   fsub upper_left.im
     (fdiv (fmul (fl (pixel.2 : ℚ)) (fsub upper_left.im lower_right.im)) (fl (size.2 : ℚ)))⟩

theorem fl_zero : fl 0 = 0 := by simp [fl]

theorem rne_intCast (n : ℤ) : rne (n : ℚ) = n := by
  unfold rne
  rw [Int.floor_intCast]
  norm_num

theorem rne_of_floor (x : ℚ) (n : ℤ) (hfl : ⌊x⌋ = n) (h : x - n < 1/2) : rne x = n := by
  unfold rne
  rw [hfl, if_pos h]

theorem rne_of_ceil (x : ℚ) (n : ℤ) (hfl : ⌊x⌋ = n) (h : 1/2 < x - n) : rne x = n + 1 := by
  unfold rne
  rw [hfl, if_neg (by linarith), if_pos h]

theorem rne_tie_odd (x : ℚ) (n : ℤ) (hfl : ⌊x⌋ = n) (h : x - n = 1/2) (hodd : n % 2 = 1) :
    rne x = n + 1 := by
  unfold rne
  rw [hfl, if_neg (by rw [h]; norm_num), if_neg (by rw [h]; norm_num), if_neg (by omega)]

theorem log2_eq (r : ℚ) (e : ℤ) (h0 : 0 < r) (h1 : 2 ^ e ≤ r) (h2 : r < 2 ^ (e + 1)) :
    Int.log 2 r = e := by
  have hcast : ((2 : ℕ) : ℚ) = (2 : ℚ) := by norm_num
  have hzz : Int.log 2 (((2 : ℕ) : ℚ) ^ e) = e := Int.log_zpow (by norm_num) e
  have hmono : Int.log 2 (((2 : ℕ) : ℚ) ^ e) ≤ Int.log 2 r := by
    apply Int.log_mono_right
    · rw [hcast]
      exact zpow_pos (by norm_num) e
    · rw [hcast]
      exact h1
  have hge : Int.log 2 r ≤ e := by
    by_contra hcon
    push_neg at hcon
    have h3 : (2 : ℚ) ^ (e + 1) ≤ (2 : ℚ) ^ Int.log 2 r :=
      zpow_le_zpow_right₀ (by norm_num) (by omega)
    have h4 : ((2 : ℕ) : ℚ) ^ Int.log 2 r ≤ r := Int.zpow_log_le_self (by norm_num) h0
    rw [hcast] at h4
    linarith
  omega

theorem fl_eval_pos (x : ℚ) (e n : ℤ) (hx : 0 < x)
    (h1 : 2 ^ e ≤ x) (h2 : x < 2 ^ (e + 1))
    (hr : rne (x * 2 ^ ((52 : ℤ) - e)) = n) :
    fl x = (n : ℚ) * 2 ^ (e - 52) := by
  unfold fl
  rw [if_neg (ne_of_gt hx), if_neg (not_lt.2 hx.le), abs_of_pos hx,
    log2_eq x e hx h1 h2, hr]
  ring

/-- Claim C7, counterexample: with the representable corners
`upperLeft = 0` and `lowerRight = 3602879701896397/2^55` (the binary64
value of `0.1`) and a 3×3 grid, pixel `(width, height) = (3, 3)` does not
map exactly to `lowerRight` in binary64: `3.0 * 0.1` rounds up on a tie
and the subsequent division rounds up again, yielding
`7205759403792795/2^56` instead of `7205759403792794/2^56`. -/
theorem C7_counterexample :
    pixel_to_point64 (3, 3) (3, 3) ⟨0, 0⟩ ⟨(3602879701896397 : ℚ) / 2 ^ 55, 0⟩ ≠
      (⟨(3602879701896397 : ℚ) / 2 ^ 55, 0⟩ : Cplx) ∧
    fl ((3602879701896397 : ℚ) / 2 ^ 55) = (3602879701896397 : ℚ) / 2 ^ 55 ∧
    fl 0 = 0 := by
  have hq : fl ((3602879701896397 : ℚ) / 2 ^ 55) = (3602879701896397 : ℚ) / 2 ^ 55 := by
    rw [fl_eval_pos ((3602879701896397 : ℚ) / 2 ^ 55) (-4) 7205759403792794
      (by norm_num) (by norm_num) (by norm_num)
      (by rw [show ((3602879701896397 : ℚ) / 2 ^ 55) * 2 ^ ((52 : ℤ) - (-4)) =
            ((7205759403792794 : ℤ) : ℚ) from by norm_num]
          exact rne_intCast _)]
    norm_num
  have h3 : fl ((3 : ℕ) : ℚ) = 3 := by
    rw [show (((3 : ℕ) : ℚ)) = (3 : ℚ) from by norm_num]
    rw [fl_eval_pos 3 1 6755399441055744 (by norm_num) (by norm_num) (by norm_num)
      (by rw [show (3 : ℚ) * 2 ^ ((52 : ℤ) - 1) = ((6755399441055744 : ℤ) : ℚ) from by
            norm_num]
          exact rne_intCast _)]
    norm_num
  have hmul : fl (3 * ((3602879701896397 : ℚ) / 2 ^ 55)) = (5404319552844596 : ℚ) / 2 ^ 54 := by
    rw [fl_eval_pos _ (-2) 5404319552844596 (by norm_num) (by norm_num) (by norm_num)
      (by rw [show (3 * ((3602879701896397 : ℚ) / 2 ^ 55)) * 2 ^ ((52 : ℤ) - (-2)) =
            (10808639105689191 : ℚ) / 2 from by norm_num]
          rw [rne_tie_odd ((10808639105689191 : ℚ) / 2) 5404319552844595
            (by norm_num) (by norm_num) (by norm_num)]
          norm_num)]
    norm_num
  have hdiv : fl (((5404319552844596 : ℚ) / 2 ^ 54) / 3) = (7205759403792795 : ℚ) / 2 ^ 56 := by
    rw [fl_eval_pos _ (-4) 7205759403792795 (by norm_num) (by norm_num) (by norm_num)
      (by rw [show (((5404319552844596 : ℚ) / 2 ^ 54) / 3) * 2 ^ ((52 : ℤ) - (-4)) =
            (21617278211378384 : ℚ) / 3 from by norm_num]
          rw [rne_of_ceil ((21617278211378384 : ℚ) / 3) 7205759403792794
            (by norm_num) (by norm_num)]
          norm_num)]
    norm_num
  have hfin : fl ((7205759403792795 : ℚ) / 2 ^ 56) = (7205759403792795 : ℚ) / 2 ^ 56 := by
    rw [fl_eval_pos _ (-4) 7205759403792795 (by norm_num) (by norm_num) (by norm_num)
      (by rw [show ((7205759403792795 : ℚ) / 2 ^ 56) * 2 ^ ((52 : ℤ) - (-4)) =
            ((7205759403792795 : ℤ) : ℚ) from by norm_num]
          exact rne_intCast _)]
    norm_num
  have hre : (pixel_to_point64 (3, 3) (3, 3) ⟨0, 0⟩
      ⟨(3602879701896397 : ℚ) / 2 ^ 55, 0⟩).re = (7205759403792795 : ℚ) / 2 ^ 56 := by
    show fadd (0 : ℚ)
        (fdiv (fmul (fl ((3 : ℕ) : ℚ)) (fsub ((3602879701896397 : ℚ) / 2 ^ 55) 0))
          (fl ((3 : ℕ) : ℚ))) = _
    unfold fadd fsub fmul fdiv
    rw [sub_zero, hq, h3, hmul, hdiv, zero_add, hfin]
  refine ⟨?_, hq, fl_zero⟩
  intro hcon
  rw [hcon] at hre
  norm_num at hre

/-- Claim C7 (amended): pixel `(0,0)` maps exactly to `upperLeft` even in
binary64 (for finite representable corners and positive dimensions), and
pixel `(width, height)` maps exactly to `lowerRight` under exact real
arithmetic; under 64-bit rounding the latter can fail (see the
counterexample). -/
theorem C7_pixel_boundary :
    (∀ (size : ℕ × ℕ) (ul lr : Cplx), 1 ≤ size.1 → 1 ≤ size.2 →
      fl ul.re = ul.re → fl ul.im = ul.im →
      pixel_to_point64 size (0, 0) ul lr = ul) ∧
    (∀ (size : ℕ × ℕ) (ul lr : Cplx), 1 ≤ size.1 → 1 ≤ size.2 →
      pixel_to_point size (size.1, size.2) ul lr = lr) := by
  constructor
  · intro size ul lr h1 h2 hre him
    refine Cplx.ext ?_ ?_
    · show fadd ul.re
        (fdiv (fmul (fl ((0 : ℕ) : ℚ)) (fsub lr.re ul.re)) (fl ((size.1 : ℕ) : ℚ))) = ul.re
      rw [show ((0 : ℕ) : ℚ) = 0 from by norm_num, fl_zero]
      unfold fmul
      rw [zero_mul, fl_zero]
      unfold fdiv
      rw [zero_div, fl_zero]
      unfold fadd
      rw [add_zero, hre]
    · show fsub ul.im
        (fdiv (fmul (fl ((0 : ℕ) : ℚ)) (fsub ul.im lr.im)) (fl ((size.2 : ℕ) : ℚ))) = ul.im
      rw [show ((0 : ℕ) : ℚ) = 0 from by norm_num, fl_zero]
      unfold fmul
      rw [zero_mul, fl_zero]
      unfold fdiv
      rw [zero_div, fl_zero]
      unfold fsub
      rw [sub_zero, him]
  · intro size ul lr h1 h2
    have hs1 : ((size.1 : ℕ) : ℚ) ≠ 0 := Nat.cast_ne_zero.2 (by omega)
    have hs2 : ((size.2 : ℕ) : ℚ) ≠ 0 := Nat.cast_ne_zero.2 (by omega)
    refine Cplx.ext ?_ ?_
    · show ul.re + (size.1 : ℚ) * (lr.re - ul.re) / (size.1 : ℚ) = lr.re
      field_simp
    · show ul.im - (size.2 : ℚ) * (ul.im - lr.im) / (size.2 : ℚ) = lr.im
      field_simp

/-- Claim C7, witness: concrete instances of both amended boundary
properties. -/
theorem C7_witness :
    pixel_to_point64 (5, 7) (0, 0) ⟨0, 0⟩ ⟨1, 1⟩ = ⟨0, 0⟩ ∧
    pixel_to_point (2, 2) (2, 2) ⟨-2, 2⟩ ⟨2, -2⟩ = ⟨2, -2⟩ :=
  ⟨C7_pixel_boundary.1 (5, 7) ⟨0, 0⟩ ⟨1, 1⟩ (by norm_num) (by norm_num) fl_zero fl_zero,
   C7_pixel_boundary.2 (2, 2) ⟨-2, 2⟩ ⟨2, -2⟩ (by norm_num) (by norm_num)⟩
